import Mathlib

/-!
Verification of the gap/block detection engine of `tide`
(`src/tide/utils.py` and `FillGapsAR.transform` of `src/tide/processing.py`),
shallowly embedded over an integer time axis.

Timestamps and durations are natural numbers of grid ticks (one tick = the
time unit of the example at hand, e.g. one hour or thirty minutes); pandas
`Timestamp`/`Timedelta` arithmetic on such an axis is plain integer
arithmetic.  A column is a list of `(timestamp, value)` pairs in axis order,
`none` standing for a NaN entry.  Operations that raise in the source
(`IndexError`, `ValueError`, a failed `asfreq`) return `none` here.
-/

namespace Tide

abbrev Stamp := Nat

/-- A time-indexed column (`pd.Series` with a `DatetimeIndex`): pairs of
timestamp and value in axis order, `none` modelling NaN. -/
abbrev TSeries := List (Stamp × Option ℚ)

/-- The datetime axis of a column. -/
def indexOf (s : TSeries) : List Stamp :=
  s.map Prod.fst

/-- The value stored at timestamp `t`, flattened: `none` when `t` is absent
from the axis or holds NaN. -/
def lookup (s : TSeries) (t : Stamp) : Option ℚ :=
  (s.find? (fun p => p.1 = t)).bind Prod.snd

/-- Consecutive differences of an axis (`idx.to_series().diff()` with the
leading `NaT` dropped). -/
def diffs (idx : List Stamp) : List Stamp :=
  List.zipWith (fun a b => b - a) idx idx.tail

/-- `get_freq_delta_or_min_time_interval`: the canonical grid step, the
minimum consecutive timestamp difference
(`df.index.to_frame().diff().min()`; on the uniform fixed-period axes in
scope `inferred_freq` coincides with this minimum).  `none` models the
downstream failure on an axis with fewer than two points, where the minimum
is `NaT` and `asfreq(NaT)` raises. -/
def get_freq_delta_or_min_time_interval (idx : List Stamp) : Option Stamp :=
  (diffs idx).min?

/-- The uniform grid `pd.date_range(t0, tN, freq)`. -/
def gridIndex (t0 tN freq : Stamp) : List Stamp :=
  (List.range ((tN - t0) / freq + 1)).map fun k => t0 + k * freq

/-- `data.asfreq(freq)`: re-index onto the uniform grid spanning the axis.
Grid points absent from the original axis become NaN; original points that
lie off the grid are dropped. -/
def asfreq (s : TSeries) (freq : Stamp) : TSeries :=
  match indexOf s with
  | [] => []
  | t0 :: rest =>
    (gridIndex t0 ((t0 :: rest).getLastD t0) freq).map fun g => (g, lookup s g)

/-- `_lower_bound`: the `ops` table keyed by `(bound_inclusive, inner)`. -/
def lowerBoundOp (d bound : Stamp) (bound_inclusive inner : Bool) : Bool :=
  match bound_inclusive, inner with
  | false, false => d < bound
  | false, true => bound < d
  | true, false => d ≤ bound
  | true, true => bound ≤ d

/-- `_upper_bound`: the `ops` table keyed by `(bound_inclusive, inner)`. -/
def upperBoundOp (d bound : Stamp) (bound_inclusive inner : Bool) : Bool :=
  match bound_inclusive, inner with
  | false, false => bound < d
  | false, true => d < bound
  | true, false => bound ≤ d
  | true, true => d ≤ bound

/-- `np.where(arr != m)[0]` over a difference array. -/
def whereNe (d : List Stamp) (m : Stamp) : List Nat :=
  (List.range d.length).filter fun j => d.getD j 0 ≠ m

/-- `split_points = np.where(time_diff != time_diff.min())[0][1:]`.
`time_diff` carries a leading `NaT` which compares unequal to everything, so
position `0` is always the element `[1:]` removes; the surviving positions
are the `j + 1` whose consecutive member difference is not the minimum
one. -/
def splitPoints (idx : List Stamp) : List Nat :=
  (whereNe (diffs idx) ((diffs idx).min?.getD 0)).map (· + 1)

/-- Successive slices of `l` between division points
`prev, p₁, …, l.length`: the recursion `np.split` performs. -/
def npSlices (l : List α) : Nat → List Nat → List (List α)
  | prev, [] => [(l.drop prev).take (l.length - prev)]
  | prev, p :: ps => ((l.drop prev).take (p - prev)) :: npSlices l p ps

/-- `np.split(l, ps)`. -/
def npSplit (l : List α) (ps : List Nat) : List (List α) :=
  npSlices l 0 ps

/-- `consecutive_indices = np.split(idx, split_points)`. -/
def consecutive_indices (idx : List Stamp) : List (List Stamp) :=
  npSplit idx (splitPoints idx)

/-- The duration the source computes per chunk:
`idx[-1] - idx[0] + freq`. -/
def blocDuration (freq : Stamp) (b : List Stamp) : Stamp :=
  b.getLastD 0 - b.headD 0 + freq

/-- The member index `idx = df.index[filt]` of `get_series_bloc`: grid
timestamps whose regridded value matches the target class.  (The boolean
`dtype` branch of the source is reached only through the hard-coded
combination column, which no operation in scope uses.) -/
def memberIdx (s : TSeries) (freq : Stamp) (is_null : Bool) : List Stamp :=
  (((asfreq s freq).filter fun p =>
    if is_null then p.2.isNone else p.2.isSome).map Prod.fst)

/-- The per-chunk filter of `get_series_bloc`: `lower_mask`, `upper_mask`
(an unsupplied bound is the all-ones mask) combined with `&` under inner and
`|` under outer selection. -/
def keepBloc (select_inner : Bool) (lower upper : Option Stamp)
    (lower_inclusive upper_inclusive : Bool) (freq : Stamp)
    (b : List Stamp) : Bool :=
  let d := blocDuration freq b
  let lower_mask :=
    match lower with
    | none => true
    | some bd => lowerBoundOp d bd lower_inclusive select_inner
  let upper_mask :=
    match upper with
    | none => true
    | some bd => upperBoundOp d bd upper_inclusive select_inner
  if select_inner then lower_mask && upper_mask else lower_mask || upper_mask

/-- `get_series_bloc`.  `none` models the exceptions the source raises: an
axis with fewer than two points or duplicate timestamps (`asfreq` fails),
and an empty member index, where `np.split` yields one empty chunk and
`idx[-1]` in the `durations` comprehension raises `IndexError`. -/
def get_series_bloc (date_series : TSeries) (is_null select_inner : Bool)
    (lower_td_threshold upper_td_threshold : Option Stamp)
    (lower_bound_inclusive upper_bound_inclusive : Bool) :
    Option (List (List Stamp)) :=
  match get_freq_delta_or_min_time_interval (indexOf date_series) with
  | none => none
  | some freq =>
    if freq = 0 then none
    else
      if (memberIdx date_series freq is_null).isEmpty then none
      else
        some ((consecutive_indices (memberIdx date_series freq is_null)).filter
          (keepBloc select_inner lower_td_threshold upper_td_threshold
            lower_bound_inclusive upper_bound_inclusive freq))

/-- The grid step `get_series_bloc` works with on a given column. -/
def seriesFreq (s : TSeries) : Stamp :=
  (get_freq_delta_or_min_time_interval (indexOf s)).getD 0

/-- A time-indexed frame (`pd.DataFrame`): one shared datetime axis and named
value columns, each as long as the axis. -/
structure Frame where
  index : List Stamp
  cols : List (String × List (Option ℚ))

/-- The column `c` of a frame as a series over the frame's axis
(`data[col]`). -/
def Frame.colSeries (f : Frame) (c : String × List (Option ℚ)) : TSeries :=
  f.index.zip c.2

/-- `get_data_blocks(data, …, cols=None, return_combination=False)`:
`get_series_bloc` on every column in order; the first raising column aborts
the call (`none`).  The `return_combination=True` branch (which hard-codes
the column names "data_1"/"data_2") is reached by no operation in scope. -/
def get_data_blocks (f : Frame) (is_null select_inner : Bool)
    (lower_td_threshold upper_td_threshold : Option Stamp)
    (lower_threshold_inclusive upper_threshold_inclusive : Bool) :
    Option (List (String × List (List Stamp))) :=
  f.cols.mapM fun c =>
    (get_series_bloc (f.colSeries c) is_null select_inner
      lower_td_threshold upper_td_threshold
      lower_threshold_inclusive upper_threshold_inclusive).map
      fun bs => (c.1, bs)

/-- The threshold/inclusivity combination `get_gaps_mask` hands to
`get_data_blocks` per operator: `(lower, upper, lower_inclusive,
upper_inclusive)`.  `none` models the `ValueError` on any other operator. -/
def opParams (operator : String) (size : Option Stamp) :
    Option (Option Stamp × Option Stamp × Bool × Bool) :=
  if operator = "GTE" then some (size, none, true, true)
  else if operator = "GT" then some (size, none, false, true)
  else if operator = "LTE" then some (none, size, true, true)
  else if operator = "LT" then some (none, size, true, false)
  else none

/-- `get_gaps_mask(data, operator, size)`: missing-run blocks of every column
under the operator's bound combination, then a boolean mask over the frame's
axis testing membership in the union of the FIRST column's surviving runs
(`gaps[data.columns[0]]`, then `np.isin(data.index, final_index)`).  `none`
models the `ValueError` on an unknown operator, any exception out of the
per-column segmentation, and `data.columns[0]` on a frame with no
columns. -/
def get_gaps_mask (f : Frame) (operator : String) (size : Option Stamp) :
    Option (List Bool) :=
  match opParams operator size with
  | none => none
  | some (lower, upper, lowInc, upInc) =>
    match get_data_blocks f true true lower upper lowInc upInc with
    | none => none
    | some gaps =>
      match gaps with
      | [] => none
      | (_, gaps_idx) :: _ =>
        some (f.index.map fun t => decide (t ∈ gaps_idx.flatten))

/-- `get_outer_timestamps(idx, ref_index)`: the reference timestamp
immediately before the block's first member (`ref_index[ref_index <
idx[0]][-1]`, falling back to `ref_index[0]` on `IndexError`) and the one
immediately after its last member (`ref_index[ref_index > idx[-1]][0]`,
falling back to `ref_index[-1]`).  `none` models the unguarded `IndexError`
when the block or the reference index is empty. -/
def get_outer_timestamps : List Stamp → List Stamp → Option (Stamp × Stamp)
  | i0 :: itl, r0 :: rtl =>
    some ((((r0 :: rtl).filter fun r => r < i0).getLastD r0),
      (((r0 :: rtl).filter fun r => (i0 :: itl).getLastD i0 < r).headD
        ((r0 :: rtl).getLastD r0)))
  | _, _ => none

/-- `X.loc[idx, col] = bc_model.predict(...)` (`_fit_and_fill_x`): write the
model's predictions over the stamps of `idx`.  The fitted model itself is an
external collaborator; `v` abstracts its per-stamp prediction. -/
def fillAt (X : TSeries) (idx : List Stamp) (v : Stamp → ℚ) : TSeries :=
  X.map fun p => if p.1 ∈ idx then (p.1, some (v p.1)) else p

/-- A pluggable forecasting model family: given the data at fit time, the
valid block fitted on and the direction (`true` = backcast), a prediction
per stamp. -/
abbrev Predict := TSeries → List Stamp → Bool → Stamp → ℚ

/-- The inner `for i, idx in enumerate(gaps[col])` scan of
`FillGapsAR.transform`: a pending gap containing `start` is backcast-filled,
else one containing `end` is forecast-filled, and either is marked for
deletion; `X` is mutated as the scan goes and the marked gaps are removed
afterwards. -/
def gapScan (predict : Predict) (biggest_group : List Stamp)
    (start stop : Stamp) :
    TSeries → List (List Stamp) → TSeries × List (List Stamp)
  | X, [] => (X, [])
  | X, g :: gs =>
    if start ∈ g then
      gapScan predict biggest_group start stop
        (fillAt X g (predict X biggest_group true)) gs
    else if stop ∈ g then
      gapScan predict biggest_group start stop
        (fillAt X g (predict X biggest_group false)) gs
    else
      let r := gapScan predict biggest_group start stop X gs
      (r.1, g :: r.2)

/-- One iteration of the per-column `while gaps[col]:` loop of
`FillGapsAR.transform`: re-segment the current column into valid blocks with
no filtering, pick the first block of maximal `block[-1] - block[0]`,
resolve its outer timestamps against the full axis and scan the pending
gaps.  `none` models an exception (e.g. valid-block segmentation raising on
a column with no valid point). -/
def arStep (predict : Predict) (X : TSeries)
    (gaps : List (List Stamp)) : Option (TSeries × List (List Stamp)) :=
  match get_series_bloc X false true none none true true with
  | none => none
  | some data_blocks =>
    let data_timedelta := data_blocks.map fun b => b.getLastD 0 - b.headD 0
    let biggest_group :=
      data_blocks.getD (data_timedelta.indexOf (data_timedelta.foldl max 0)) []
    match get_outer_timestamps biggest_group (indexOf X) with
    | none => none
    | some (start, stop) => some (gapScan predict biggest_group start stop X gaps)

/-- The per-column `while gaps[col]:` loop, fuel-indexed: at most `n`
iterations, returning the state reached.  The source loop exits only once
the pending list is empty. -/
def arLoop (predict : Predict) :
    Nat → TSeries → List (List Stamp) → Option (TSeries × List (List Stamp))
  | 0, X, gaps => some (X, gaps)
  | n + 1, X, gaps =>
    if gaps.isEmpty then some (X, gaps)
    else
      match arStep predict X gaps with
      | none => none
      | some (X', gaps') => arLoop predict n X' gaps'

/-- Modelled from the spec's splitting rule, stated over a fixed spacing `m`:
the maximal runs of members whose consecutive difference equals `m`.  The
spec words the rule with `m = GridFrequency`; the source computes `m` as the
minimum consecutive member difference. -/
def runsBy (m : Stamp) : List Stamp → List (List Stamp)
  | [] => []
  | [t] => [[t]]
  | t :: u :: rest =>
    match runsBy m (u :: rest) with
    | [] => [[t]]
    | r :: rs => if u - t = m then (t :: r) :: rs else [t] :: r :: rs

/-- The uniform grid a series is re-indexed onto (the axis of
`data.asfreq(freq)`). -/
def seriesGrid (s : TSeries) : List Stamp :=
  match indexOf s with
  | [] => []
  | t0 :: rest => gridIndex t0 ((t0 :: rest).getLastD t0) (seriesFreq s)

/-- Modelled from the spec's duration-filter rule (4.2 step 5): each bound
test uses `≥`/`>` (lower) and `≤`/`<` (upper) per its inclusivity flag, with
the operators flipped when testing for outer selection; an unsupplied bound
always passes; under inner selection a run must pass BOTH tests, under
outer selection EITHER. -/
def keepSpec (select_inner : Bool) (lower upper : Option Stamp)
    (lower_inclusive upper_inclusive : Bool) (d : Stamp) : Bool :=
  let lowerPass :=
    match lower with
    | none => true
    | some lb =>
      if select_inner then
        (if lower_inclusive then decide (lb ≤ d) else decide (lb < d))
      else
        (if lower_inclusive then decide (d ≤ lb) else decide (d < lb))
  let upperPass :=
    match upper with
    | none => true
    | some ub =>
      if select_inner then
        (if upper_inclusive then decide (d ≤ ub) else decide (d < ub))
      else
        (if upper_inclusive then decide (ub ≤ d) else decide (ub < d))
  if select_inner then lowerPass && upperPass else lowerPass || upperPass

/-! Concrete columns and frames used by the per-claim scenarios.  One tick =
one hour unless said otherwise. -/

/-- Hourly column, members at 0h/2h/4h and NaN at 1h/3h: no two members are
grid-adjacent. -/
def sAlternating : TSeries :=
  [(0, some 1), (1, none), (2, some 1), (3, none), (4, some 1)]

/-- Hourly column with two disjoint single-point (1-hour) gaps at 1h and 4h
separated by valid data. -/
def sTwoGapsHourly : TSeries :=
  [(0, some 1), (1, none), (2, some 1), (3, some 1), (4, none), (5, some 1),
   (6, some 1)]

/-- Thirty-minute column (one tick = 30 min) with two disjoint two-point
(1-hour) gaps at ticks 2–3 and 8–9 separated by valid data. -/
def sTwoGapsHalfHour : TSeries :=
  [(0, some 1), (1, some 1), (2, none), (3, none), (4, some 1), (5, some 1),
   (6, some 1), (7, some 1), (8, none), (9, none), (10, some 1), (11, some 1)]

/-- An irregular axis 0h/3h/5h, every value present: 3h and 5h lie off the
inferred 2-hour grid 0h/2h/4h. -/
def sOffGrid : TSeries := [(0, some 1), (3, some 1), (5, some 1)]

/-- 24-point hourly column with points 10–14 missing. -/
def sDay : TSeries :=
  (List.range 24).map fun t => (t, if 10 ≤ t ∧ t ≤ 14 then none else some 1)

/-- Three-point hourly column with no missing value. -/
def sAllValid : TSeries := [(0, some 1), (1, some 1), (2, some 1)]

/-- Hourly column with a partition-witnessing single gap. -/
def sOneGap : TSeries := [(0, some 1), (1, none), (2, some 1)]

/-- Hourly column with one two-point gap bracketed by valid data. -/
def sMidGap : TSeries := [(0, some 1), (1, none), (2, none), (3, some 1)]

/-- Hourly column for the stalling fill loop: non-qualifying 1-hour gaps at
1h and 8h, the qualifying 2-hour gap at 10h–11h, and the biggest valid block
at 2h–7h. -/
def sStall : TSeries :=
  [(0, some 1), (1, none), (2, some 1), (3, some 1), (4, some 1), (5, some 1),
   (6, some 1), (7, some 1), (8, none), (9, some 1), (10, none), (11, none)]

/-- Two-column hourly frame: both columns have the gap at 1h. -/
def frameA : Frame :=
  ⟨[0, 1, 2], [("a", [some 1, none, some 1]), ("b", [some 1, none, some 1])]⟩

/-- Same axis and first column as `frameA`; the second column has no missing
value. -/
def frameB : Frame :=
  ⟨[0, 1, 2], [("a", [some 1, none, some 1]), ("b", [some 1, some 1, some 1])]⟩

/-- Same axis and first column as `frameA`; the second column has a different
gap and raises nowhere. -/
def frameC : Frame :=
  ⟨[0, 1, 2], [("a", [some 1, none, some 1]), ("c", [none, some 1, some 1])]⟩

/-- The series `get_gaps_mask` actually masks: the frame's first column
(`gaps[data.columns[0]]`). -/
def firstColSeries (f : Frame) : TSeries :=
  f.index.zip ((f.cols.headD ("", [])).2)

/-! ## Structural lemmas about the embedding -/

theorem runsBy_cons_shape (m x : Stamp) (xs : List Stamp) :
    ∃ s ss, runsBy m (x :: xs) = (x :: s) :: ss := by
  induction xs generalizing x with
  | nil => exact ⟨[], [], rfl⟩
  | cons u rest ih =>
    rcases ih u with ⟨s, ss, h⟩
    by_cases hd : u - x = m
    · exact ⟨u :: s, ss, by simp [runsBy, h, hd]⟩
    · exact ⟨[], (u :: s) :: ss, by simp [runsBy, h, hd]⟩

theorem npSlices_shift {α : Type} (t : α) (l : List α) :
    ∀ (ps : List Nat) (prev : Nat),
      npSlices (t :: l) (prev + 1) (ps.map (· + 1)) = npSlices l prev ps := by
  intro ps
  induction ps with
  | nil =>
    intro prev
    simp [npSlices, Nat.succ_sub_succ]
  | cons p ps ih =>
    intro prev
    simp only [List.map_cons, npSlices, List.drop_succ_cons, Nat.succ_sub_succ]
    exact congrArg _ (ih p)

theorem whereNe_cons (d0 : Stamp) (ds : List Stamp) (m : Stamp) :
    whereNe (d0 :: ds) m =
      (if d0 ≠ m then [0] else []) ++ (whereNe ds m).map (· + 1) := by
  unfold whereNe
  rw [List.length_cons, List.range_succ_eq_map, List.filter_cons,
    List.filter_map]
  simp only [Function.comp_def, List.getD_cons_zero, List.getD_cons_succ]
  have hsucc : List.map Nat.succ = List.map (fun x : Nat => x + 1) := rfl
  by_cases h : d0 = m <;> simp [h, hsucc]

theorem npSplit_whereNe_eq_runsBy (m : Stamp) :
    ∀ l : List Stamp, l ≠ [] →
      npSplit l ((whereNe (diffs l) m).map (· + 1)) = runsBy m l := by
  intro l
  induction l with
  | nil => intro h; exact absurd rfl h
  | cons t l ih =>
    intro _
    cases l with
    | nil => rfl
    | cons u rest =>
      have hdiffs : diffs (t :: u :: rest) = (u - t) :: diffs (u :: rest) := rfl
      have IH := ih (List.cons_ne_nil u rest)
      obtain ⟨s, ss, hshape⟩ := runsBy_cons_shape m u rest
      rw [hdiffs, whereNe_cons]
      by_cases hd : u - t = m
      · simp only [hd, ne_eq, not_true_eq_false, if_neg, List.nil_append,
          ite_false]
        cases hW : (whereNe (diffs (u :: rest)) m).map (· + 1) with
        | nil =>
          rw [hW] at IH
          have h1 : npSplit (t :: u :: rest) (([] : List Nat).map (· + 1)) =
              [t :: u :: rest] := by
            simp [npSplit, npSlices]
          rw [h1]
          have h2 : runsBy m (u :: rest) = [u :: rest] := by
            rw [← IH]; simp [npSplit, npSlices]
          simp [runsBy, h2, hd]
        | cons q qs =>
          rw [hW] at IH
          rw [hshape] at IH
          have h1 : npSplit (t :: u :: rest) ((q :: qs).map (· + 1)) =
              (t :: (u :: rest).take q) :: npSlices (u :: rest) q qs := by
            simp only [List.map_cons, npSplit, npSlices, List.drop_zero,
              Nat.sub_zero, List.take_succ_cons]
            rw [npSlices_shift]
          have h2 : (u :: rest).take q :: npSlices (u :: rest) q qs =
              (u :: s) :: ss := by
            rw [← IH]; simp [npSplit, npSlices]
          injection h2 with h2a h2b
          rw [h1, h2a, h2b]
          simp [runsBy, hshape, hd]
      · simp only [hd, ne_eq, not_false_eq_true, if_pos, ite_true,
          List.singleton_append]
        have h1 : npSplit (t :: u :: rest)
            ((0 :: (whereNe (diffs (u :: rest)) m).map (· + 1)).map (· + 1)) =
            [t] :: npSplit (u :: rest)
              ((whereNe (diffs (u :: rest)) m).map (· + 1)) := by
          simp only [List.map_cons, npSplit, npSlices, List.drop_zero,
            Nat.sub_zero, List.take_succ_cons, List.take_zero]
          rw [npSlices_shift]
        rw [h1, IH, hshape]
        simp [runsBy, hshape, hd]

theorem consecutive_indices_eq_runsBy (idx : List Stamp) (h : idx ≠ []) :
    consecutive_indices idx = runsBy ((diffs idx).min?.getD 0) idx := by
  unfold consecutive_indices splitPoints
  exact npSplit_whereNe_eq_runsBy _ idx h

theorem runsBy_flatten (m : Stamp) : ∀ l : List Stamp, (runsBy m l).flatten = l := by
  intro l
  induction l with
  | nil => rfl
  | cons t l ih =>
    cases l with
    | nil => rfl
    | cons u rest =>
      cases h : runsBy m (u :: rest) with
      | nil => rw [h] at ih; exact absurd ih.symm (List.cons_ne_nil u rest)
      | cons r rs =>
        rw [h] at ih
        by_cases hd : u - t = m <;>
          simp_all [runsBy, h, hd, List.flatten_cons]

theorem runsBy_chain (m : Stamp) :
    ∀ l : List Stamp, ∀ b ∈ runsBy m l, b.Chain' fun a c => c - a = m := by
  intro l
  induction l with
  | nil => intro b hb; cases hb
  | cons t l ih =>
    cases l with
    | nil =>
      intro b hb
      rw [show runsBy m [t] = [[t]] from rfl, List.mem_singleton] at hb
      subst hb
      exact List.chain'_singleton t
    | cons u rest =>
      intro b hb
      obtain ⟨s, ss, hshape⟩ := runsBy_cons_shape m u rest
      rw [show runsBy m (t :: u :: rest) = (if u - t = m
          then (t :: u :: s) :: ss else [t] :: (u :: s) :: ss) by
        simp [runsBy, hshape]] at hb
      by_cases hd : u - t = m
      · rw [if_pos hd] at hb
        rcases List.mem_cons.1 hb with rfl | hb'
        · have hm : (u :: s) ∈ runsBy m (u :: rest) := by
            rw [hshape]; exact List.mem_cons_self _ _
          exact List.chain'_cons.2 ⟨hd, ih (u :: s) hm⟩
        · exact ih b (by rw [hshape]; exact List.mem_cons_of_mem _ hb')
      · rw [if_neg hd] at hb
        rcases List.mem_cons.1 hb with rfl | hb'
        · exact List.chain'_singleton t
        · exact ih b (by rw [hshape]; exact hb')

theorem runsBy_ne_nil (m : Stamp) :
    ∀ l : List Stamp, ∀ b ∈ runsBy m l, b ≠ [] := by
  intro l
  induction l with
  | nil => intro b hb; cases hb
  | cons t l ih =>
    cases l with
    | nil =>
      intro b hb
      rw [show runsBy m [t] = [[t]] from rfl, List.mem_singleton] at hb
      subst hb
      exact List.cons_ne_nil t []
    | cons u rest =>
      intro b hb
      obtain ⟨s, ss, hshape⟩ := runsBy_cons_shape m u rest
      rw [show runsBy m (t :: u :: rest) = (if u - t = m
          then (t :: u :: s) :: ss else [t] :: (u :: s) :: ss) by
        simp [runsBy, hshape]] at hb
      by_cases hd : u - t = m
      · rw [if_pos hd] at hb
        rcases List.mem_cons.1 hb with rfl | hb'
        · exact List.cons_ne_nil _ _
        · exact ih b (by rw [hshape]; exact List.mem_cons_of_mem _ hb')
      · rw [if_neg hd] at hb
        rcases List.mem_cons.1 hb with rfl | hb'
        · exact List.cons_ne_nil _ _
        · exact ih b (by rw [hshape]; exact hb')

theorem gridIndex_nodup (t0 tN freq : Stamp) (h : freq ≠ 0) :
    (gridIndex t0 tN freq).Nodup := by
  unfold gridIndex
  refine List.Nodup.map ?_ (List.nodup_range _)
  intro a b hab
  have := Nat.add_left_cancel hab
  exact Nat.eq_of_mul_eq_mul_right (Nat.pos_of_ne_zero h) this

theorem seriesGrid_nodup (s : TSeries) (h : seriesFreq s ≠ 0) :
    (seriesGrid s).Nodup := by
  unfold seriesGrid
  cases indexOf s with
  | nil => exact List.nodup_nil
  | cons t0 rest => exact gridIndex_nodup _ _ _ h

theorem asfreq_eq_map_grid (s : TSeries) (freq : Stamp)
    (hf : seriesFreq s = freq) :
    asfreq s freq = (seriesGrid s).map fun g => (g, lookup s g) := by
  unfold asfreq seriesGrid
  cases indexOf s with
  | nil => rfl
  | cons t0 rest => rw [hf]

theorem memberIdx_eq_filter_grid (s : TSeries) (freq : Stamp)
    (hf : seriesFreq s = freq) (inull : Bool) :
    memberIdx s freq inull =
      (seriesGrid s).filter fun g =>
        if inull then (lookup s g).isNone else (lookup s g).isSome := by
  unfold memberIdx
  rw [asfreq_eq_map_grid s freq hf, List.filter_map, List.map_map]
  simp [Function.comp_def]

theorem keepBloc_none_none (si li ui : Bool) (freq : Stamp) (b : List Stamp) :
    keepBloc si none none li ui freq b = true := by
  cases si <;> rfl

theorem get_series_bloc_eq_some_iff {s : TSeries} {inull sinner : Bool}
    {lo up : Option Stamp} {li ui : Bool} {K : List (List Stamp)} :
    get_series_bloc s inull sinner lo up li ui = some K ↔
      ∃ freq, get_freq_delta_or_min_time_interval (indexOf s) = some freq ∧
        freq ≠ 0 ∧ memberIdx s freq inull ≠ [] ∧
        K = (consecutive_indices (memberIdx s freq inull)).filter
          (keepBloc sinner lo up li ui freq) := by
  constructor
  · intro h
    unfold get_series_bloc at h
    split at h
    · simp at h
    · next freq hf =>
      split at h
      · simp at h
      · next h0 =>
        split at h
        · simp at h
        · next hne =>
          refine ⟨freq, hf, h0, ?_, ?_⟩
          · simpa [List.isEmpty_iff] using hne
          · exact (Option.some_inj.1 h).symm
  · rintro ⟨freq, hf, h0, hidx, rfl⟩
    unfold get_series_bloc
    rw [hf]
    simp [h0, hidx, List.isEmpty_iff]

theorem countP_mem_flatten_eq_one {B : List (List Stamp)} {t : Stamp}
    (hnd : B.flatten.Nodup) (ht : t ∈ B.flatten) :
    B.countP (fun b => decide (t ∈ b)) = 1 := by
  induction B with
  | nil => simp at ht
  | cons b bs ih =>
    rw [List.flatten_cons] at hnd ht
    rw [List.nodup_append] at hnd
    rw [List.countP_cons]
    rcases List.mem_append.1 ht with h | h
    · have hz : bs.countP (fun b => decide (t ∈ b)) = 0 := by
        rw [List.countP_eq_zero]
        intro b' hb' hmem
        exact hnd.2.2 h (List.mem_flatten.2 ⟨b', hb', by simpa using hmem⟩)
      simp [hz, h]
    · have hnb : t ∉ b := fun hc => hnd.2.2 hc h
      have := ih hnd.2.1 h
      simp [this, hnb]

/-! ## Per-claim theorems -/

/-- C6: the code, not the claim, is at fault.  On a uniform three-point
column with no missing value, segmenting for missing runs does not return an
empty block list: the member index is empty, `np.split` yields one empty
chunk and `idx[-1]` in the `durations` comprehension raises `IndexError`
(modelled by `none`).  The empty series likewise raises (`asfreq` on a `NaT`
frequency) instead of returning an empty list per column. -/
theorem segmentation_raises_without_members :
    get_series_bloc sAllValid true true none none true true = none ∧
    get_series_bloc ([] : TSeries) true true none none true true = none :=
  ⟨rfl, rfl⟩

/-- C1: the code, not the claim, is at fault.  On `sStall` with
`lower_gap_threshold = 2` hours the initial qualifying-gap list is the
single block 10h–11h; the biggest valid block is 2h–7h, whose outer
timestamps 1h and 8h lie in the two non-qualifying 1-hour gaps, so no
iteration of the per-column `while` loop fills or removes any pending gap:
the pending count never decreases and the loop never terminates, whatever
the forecasting model predicts. -/
theorem fillGapsAR_stalls :
    get_series_bloc sStall true true (some 2) none true true = some [[10, 11]] ∧
    (∀ predict : Predict,
      arStep predict sStall [[10, 11]] = some (sStall, [[10, 11]])) ∧
    ∀ (predict : Predict) (n : Nat),
      arLoop predict n sStall [[10, 11]] = some (sStall, [[10, 11]]) := by
  refine ⟨by decide, fun predict => rfl, ?_⟩
  intro predict n
  induction n with
  | zero => rfl
  | succ n ih => exact ih

/-- C5: every returned run's duration is `last − first + GridFrequency`, a
single-point run's duration is exactly one grid step, and the 24-point
hourly series with points 10–14 missing yields exactly one missing block
covering 10h–14h with duration 5 hours. -/
theorem run_duration_formula :
    (∀ (freq t : Stamp), blocDuration freq [t] = freq) ∧
    (∀ (freq : Stamp) (b : List Stamp),
      blocDuration freq b = b.getLastD 0 - b.headD 0 + freq) ∧
    seriesFreq sDay = 1 ∧
    get_series_bloc sDay true true none none true true =
      some [[10, 11, 12, 13, 14]] ∧
    blocDuration (seriesFreq sDay) [10, 11, 12, 13, 14] = 5 := by
  refine ⟨?_, fun freq b => rfl, by decide, by decide, by decide⟩
  intro freq t
  simp [blocDuration]

/-- C2, counterexample: on the hourly column with members 0h/2h/4h and NaN
at 1h/3h, segmentation returns the single block `[0, 2, 4]`, although the
grid timestamp 1h between the members 0h and 2h is not a member — two
member timestamps separated by a non-member grid point land in the same
block, and the boundary rule is not `gap > GridFrequency`. -/
theorem segmentation_merges_nonadjacent_members :
    get_series_bloc sAlternating false true none none true true =
      some [[0, 2, 4]] ∧
    seriesFreq sAlternating = 1 ∧
    (1 : Stamp) ∈ seriesGrid sAlternating ∧
    (1 : Stamp) ∉ memberIdx sAlternating 1 false := by
  decide

/-- C3, counterexample: on the hourly column with two disjoint single-point
1-hour gaps (1h and 4h), the split-at-minimum-member-spacing rule merges the
two gaps into the single pending block `[1, 4]` of duration 4h; with
`lower_duration = 2` hours, inner selection then returns that block rather
than nothing, and outer selection returns it as one merged block rather
than the two 1-hour gaps. -/
theorem duration_filter_scenario_fails_on_hourly_grid :
    get_series_bloc sTwoGapsHourly true true (some 2) none true true =
      some [[1, 4]] ∧
    get_series_bloc sTwoGapsHourly true true (some 2) none true true ≠
      some [] ∧
    get_series_bloc sTwoGapsHourly true false (some 2) none true true =
      some [[1, 4]] := by
  decide

/-- C4, counterexample: on the irregular axis 0h/3h/5h with every value
present, the inferred grid step is 2 hours and `asfreq` re-indexes onto
0h/2h/4h, so the valid blocks are `[[0]]` and the missing blocks `[[2, 4]]`:
their union is the regridded axis, and the original timestamp 3h belongs to
no block at all — the union does not reconstruct the original
(pre-regridding) index. -/
theorem segmentation_union_misses_offgrid_stamp :
    get_series_bloc sOffGrid false true none none true true = some [[0]] ∧
    get_series_bloc sOffGrid true true none none true true = some [[2, 4]] ∧
    (3 : Stamp) ∈ indexOf sOffGrid ∧
    (3 : Stamp) ∉ ([[0]] : List (List Stamp)).flatten ++
      ([[2, 4]] : List (List Stamp)).flatten := by
  decide

/-- C10, counterexample: `frameA` and `frameB` share their axis and their
first column, but `get_gaps_mask` returns a mask on `frameA` and raises on
`frameB` (its second column has no missing value, so that column's
segmentation raises): the outputs are not identical even though the first
columns agree. -/
theorem gaps_mask_other_column_can_raise :
    frameA.index = frameB.index ∧
    (frameA.cols.head?).map Prod.snd = (frameB.cols.head?).map Prod.snd ∧
    get_gaps_mask frameA "GTE" (some 1) = some [false, true, false] ∧
    get_gaps_mask frameB "GTE" (some 1) = none ∧
    get_gaps_mask frameA "GTE" (some 1) ≠ get_gaps_mask frameB "GTE" (some 1) := by
  refine ⟨rfl, rfl, by decide, by decide, by decide⟩

/-- C2 (amended): segmentation splits the member index into the maximal runs
whose consecutive spacing equals the MINIMUM consecutive member spacing (not
`GridFrequency`); within each returned block consecutive members differ by
exactly that minimum. -/
theorem segmentation_splits_at_min_member_spacing (idx : List Stamp)
    (h : idx ≠ []) :
    consecutive_indices idx = runsBy ((diffs idx).min?.getD 0) idx ∧
    ∀ b ∈ consecutive_indices idx,
      b.Chain' fun a c => c - a = (diffs idx).min?.getD 0 := by
  have he := consecutive_indices_eq_runsBy idx h
  exact ⟨he, fun b hb => runsBy_chain _ idx b (he ▸ hb)⟩

/-- Witness for C2's amended theorem at the member index `[0, 2, 3, 5]`. -/
theorem segmentation_splits_at_min_member_spacing_witness :
    consecutive_indices [0, 2, 3, 5] =
      runsBy ((diffs [0, 2, 3, 5]).min?.getD 0) [0, 2, 3, 5] ∧
    ∀ b ∈ consecutive_indices [0, 2, 3, 5],
      b.Chain' fun a c => c - a = (diffs [0, 2, 3, 5]).min?.getD 0 :=
  segmentation_splits_at_min_member_spacing [0, 2, 3, 5] (by decide)

/-- C3 (amended): the duration filter keeps a run exactly per the spec's
inner/outer rule (`keepSpec`), and on the thirty-minute grid, where each
1-hour gap spans two grid points, outer selection with `lower_duration = 2h`
returns both 1-hour gaps while inner selection returns neither. -/
theorem duration_filter_inner_outer :
    (∀ (select_inner li ui : Bool) (lower upper : Option Stamp)
      (freq : Stamp) (b : List Stamp),
      keepBloc select_inner lower upper li ui freq b =
        keepSpec select_inner lower upper li ui (blocDuration freq b)) ∧
    get_series_bloc sTwoGapsHalfHour true false (some 4) none true true =
      some [[2, 3], [8, 9]] ∧
    get_series_bloc sTwoGapsHalfHour true true (some 4) none true true =
      some [] := by
  refine ⟨?_, by decide, by decide⟩
  intro si li ui lo up freq b
  cases si <;> cases li <;> cases ui <;> cases lo <;> cases up <;>
    simp [keepBloc, keepSpec, lowerBoundOp, upperBoundOp]

/-- C8: a missing run of duration exactly `bd` is kept by the duration
filter under inner selection when the matching bound is inclusive and
dropped when it is exclusive, for the lower and the upper bound alike; the
filtered calls return whenever the unfiltered one does. -/
theorem boundary_inclusivity (s : TSeries) (chunks : List (List Stamp))
    (b : List Stamp) (bd : Stamp)
    (hc : get_series_bloc s true true none none true true = some chunks)
    (hb : b ∈ chunks) (hd : blocDuration (seriesFreq s) b = bd) :
    (∀ (lo up : Option Stamp) (li ui : Bool),
      (get_series_bloc s true true lo up li ui).isSome) ∧
    (∀ K, get_series_bloc s true true (some bd) none true true = some K →
      b ∈ K) ∧
    (∀ K, get_series_bloc s true true (some bd) none false true = some K →
      b ∉ K) ∧
    (∀ K, get_series_bloc s true true none (some bd) true true = some K →
      b ∈ K) ∧
    (∀ K, get_series_bloc s true true none (some bd) true false = some K →
      b ∉ K) := by
  obtain ⟨freq, hf, h0, hne, hK⟩ := get_series_bloc_eq_some_iff.1 hc
  have hfr : seriesFreq s = freq := by unfold seriesFreq; rw [hf]; rfl
  have hdur : blocDuration freq b = bd := by rw [← hfr]; exact hd
  have hchunks : b ∈ consecutive_indices (memberIdx s freq true) := by
    have : chunks = consecutive_indices (memberIdx s freq true) := by
      rw [hK]
      exact List.filter_eq_self.2 fun a _ => keepBloc_none_none _ _ _ _ _
    exact this ▸ hb
  have hfreq_eq : ∀ {freq' : Stamp},
      get_freq_delta_or_min_time_interval (indexOf s) = some freq' →
      freq' = freq := by
    intro freq' hf'
    rw [hf] at hf'
    exact (Option.some_inj.1 hf').symm
  refine ⟨?_, ?_, ?_, ?_, ?_⟩
  · intro lo up li ui
    exact Option.isSome_iff_exists.2
      ⟨_, get_series_bloc_eq_some_iff.2 ⟨freq, hf, h0, hne, rfl⟩⟩
  · intro K hKs
    obtain ⟨freq', hf', _, _, hK'⟩ := get_series_bloc_eq_some_iff.1 hKs
    obtain rfl := hfreq_eq hf'
    rw [hK']
    refine List.mem_filter.2 ⟨hchunks, ?_⟩
    simp [keepBloc, lowerBoundOp, hdur]
  · intro K hKs hmem
    obtain ⟨freq', hf', _, _, hK'⟩ := get_series_bloc_eq_some_iff.1 hKs
    obtain rfl := hfreq_eq hf'
    rw [hK'] at hmem
    have := (List.mem_filter.1 hmem).2
    simp [keepBloc, lowerBoundOp, hdur] at this
  · intro K hKs
    obtain ⟨freq', hf', _, _, hK'⟩ := get_series_bloc_eq_some_iff.1 hKs
    obtain rfl := hfreq_eq hf'
    rw [hK']
    refine List.mem_filter.2 ⟨hchunks, ?_⟩
    simp [keepBloc, upperBoundOp, hdur]
  · intro K hKs hmem
    obtain ⟨freq', hf', _, _, hK'⟩ := get_series_bloc_eq_some_iff.1 hKs
    obtain rfl := hfreq_eq hf'
    rw [hK'] at hmem
    have := (List.mem_filter.1 hmem).2
    simp [keepBloc, upperBoundOp, hdur] at this

/-- Witness for C8 on the hourly column with the single missing run 1h–2h of
duration exactly 2 hours. -/
theorem boundary_inclusivity_witness :
    (∀ (lo up : Option Stamp) (li ui : Bool),
      (get_series_bloc sMidGap true true lo up li ui).isSome) ∧
    (∀ K, get_series_bloc sMidGap true true (some 2) none true true = some K →
      [1, 2] ∈ K) ∧
    (∀ K, get_series_bloc sMidGap true true (some 2) none false true = some K →
      [1, 2] ∉ K) ∧
    (∀ K, get_series_bloc sMidGap true true none (some 2) true true = some K →
      [1, 2] ∈ K) ∧
    (∀ K, get_series_bloc sMidGap true true none (some 2) true false = some K →
      [1, 2] ∉ K) :=
  boundary_inclusivity sMidGap [[1, 2]] [1, 2] 2 (by decide) (by decide)
    (by decide)

theorem mapM_cons_some {α β : Type} (g : α → Option β) (c : α) (cs : List α)
    (r : List β) (h : (c :: cs).mapM g = some r) :
    ∃ b bs, g c = some b ∧ cs.mapM g = some bs ∧ r = b :: bs := by
  rw [List.mapM_cons] at h
  cases hc : g c with
  | none => rw [hc] at h; simp at h
  | some b =>
    rw [hc] at h
    cases hcs : cs.mapM g with
    | none => rw [hcs] at h; simp at h
    | some bs =>
      rw [hcs] at h
      refine ⟨b, bs, rfl, rfl, ?_⟩
      simpa using h.symm

/-- C7: a timestamp is masked true by `get_gaps_mask` under `GTE`/`size`
exactly when it is a member of some missing run of the first column whose
duration is at least `size`: the surviving runs are the missing chunks whose
duration passes `size ≤ duration`, and the mask tests membership in their
union. -/
theorem gaps_mask_gte_consistency (f : Frame) (size : Stamp)
    (mask : List Bool)
    (h : get_gaps_mask f "GTE" (some size) = some mask) :
    ∃ chunks,
      get_series_bloc (firstColSeries f) true true none none true true =
        some chunks ∧
      get_series_bloc (firstColSeries f) true true (some size) none true
          true =
        some (chunks.filter fun b =>
          decide (size ≤ blocDuration (seriesFreq (firstColSeries f)) b)) ∧
      mask = f.index.map fun t =>
        decide (∃ b ∈ chunks,
          size ≤ blocDuration (seriesFreq (firstColSeries f)) b ∧ t ∈ b) := by
  unfold get_gaps_mask at h
  split at h
  next heq =>
    rw [show opParams "GTE" (some size) =
      some (some size, none, true, true) from rfl] at heq
    exact absurd heq (by simp)
  next lo up li ui heq =>
    have hparams : some ((some size : Option Stamp),
        (none : Option Stamp), true, true) = some (lo, up, li, ui) := by
      rw [← heq]
      rfl
    obtain hps := Option.some_inj.1 hparams
    injection hps with ha hrest
    injection hrest with hb hrest2
    injection hrest2 with hc hd
    subst ha hb hc hd
    split at h
    next hdb => simp at h
    next gaps hdb =>
      split at h
      next => simp at h
      next nm gidx tail =>
        have hmask : mask = f.index.map fun t => decide (t ∈ gidx.flatten) := by
          simpa using h.symm
        unfold get_data_blocks at hdb
        cases hcols : f.cols with
        | nil =>
          rw [hcols, List.mapM_nil] at hdb
          simp at hdb
        | cons c crest =>
          rw [hcols] at hdb
          obtain ⟨b1, bs, hg1, _, hcons⟩ := mapM_cons_some _ c crest _ hdb
          obtain ⟨K, hKs, hb1⟩ := Option.map_eq_some'.1 hg1
          have hfc : firstColSeries f = f.colSeries c := by
            unfold firstColSeries Frame.colSeries
            rw [hcols]
            rfl
          have hpK : gidx = K := by
            have hp : (nm, gidx) = b1 := (List.cons.injEq _ _ _ _ ▸ hcons).1
            rw [← hb1] at hp
            exact (Prod.mk.injEq _ _ _ _ ▸ hp).2
          rw [hfc]
          obtain ⟨freq, hf, h0, hne, hKf⟩ := get_series_bloc_eq_some_iff.1 hKs
          have hfr : seriesFreq (f.colSeries c) = freq := by
            unfold seriesFreq; rw [hf]; rfl
          refine ⟨consecutive_indices (memberIdx (f.colSeries c) freq true),
            ?_, ?_, ?_⟩
          · exact get_series_bloc_eq_some_iff.2 ⟨freq, hf, h0, hne,
              (List.filter_eq_self.2 fun a _ =>
                keepBloc_none_none _ _ _ _ _).symm⟩
          · rw [hKs, hfr]
            congr 1
            rw [hKf]
            refine List.filter_congr fun a _ => ?_
            simp [keepBloc, lowerBoundOp]
          · rw [hmask, hpK, hKf, hfr]
            refine List.map_congr_left fun t _ => ?_
            rw [decide_eq_decide]
            constructor
            · intro ht
              obtain ⟨b, hbmem, htb⟩ := List.mem_flatten.1 ht
              have hbf := List.mem_filter.1 hbmem
              refine ⟨b, hbf.1, ?_, htb⟩
              simpa [keepBloc, lowerBoundOp] using hbf.2
            · rintro ⟨b, hbmem, hdur, htb⟩
              exact List.mem_flatten.2 ⟨b, List.mem_filter.2 ⟨hbmem,
                by simpa [keepBloc, lowerBoundOp] using hdur⟩, htb⟩

/-- Witness for C7 on `frameA` with `size` one hour. -/
theorem gaps_mask_gte_consistency_witness :
    ∃ chunks,
      get_series_bloc (firstColSeries frameA) true true none none true true =
        some chunks ∧
      get_series_bloc (firstColSeries frameA) true true (some 1) none true
          true =
        some (chunks.filter fun b =>
          decide (1 ≤ blocDuration (seriesFreq (firstColSeries frameA)) b)) ∧
      [false, true, false] = frameA.index.map fun t =>
        decide (∃ b ∈ chunks,
          1 ≤ blocDuration (seriesFreq (firstColSeries frameA)) b ∧
            t ∈ b) :=
  gaps_mask_gte_consistency frameA 1 [false, true, false] (by decide)

/-- C4 (amended): whenever both segmentations return, the union of the valid
blocks and of the missing blocks is exactly the regridded uniform axis (the
`asfreq` grid spanning the series), the two unions are disjoint, and every
grid timestamp belongs to exactly one block of its classification. -/
theorem segmentation_partitions_grid (s : TSeries)
    (V M : List (List Stamp))
    (hV : get_series_bloc s false true none none true true = some V)
    (hM : get_series_bloc s true true none none true true = some M) :
    (∀ t, t ∈ seriesGrid s ↔ (t ∈ V.flatten ∨ t ∈ M.flatten)) ∧
    (∀ t, ¬(t ∈ V.flatten ∧ t ∈ M.flatten)) ∧
    (∀ t ∈ V.flatten, (V.countP fun b => decide (t ∈ b)) = 1) ∧
    (∀ t ∈ M.flatten, (M.countP fun b => decide (t ∈ b)) = 1) := by
  obtain ⟨fv, hfv, h0v, hnev, hKv⟩ := get_series_bloc_eq_some_iff.1 hV
  obtain ⟨fm, hfm, h0m, hnem, hKm⟩ := get_series_bloc_eq_some_iff.1 hM
  have hfe : fm = fv := by
    rw [hfv] at hfm
    exact (Option.some_inj.1 hfm).symm
  subst hfe
  have hfr : seriesFreq s = fm := by unfold seriesFreq; rw [hfv]; rfl
  have hVf : V.flatten = memberIdx s fm false := by
    rw [hKv, List.filter_eq_self.2 fun a _ => keepBloc_none_none _ _ _ _ _,
      consecutive_indices_eq_runsBy _ hnev, runsBy_flatten]
  have hMf : M.flatten = memberIdx s fm true := by
    rw [hKm, List.filter_eq_self.2 fun a _ => keepBloc_none_none _ _ _ _ _,
      consecutive_indices_eq_runsBy _ hnem, runsBy_flatten]
  have hmemV : memberIdx s fm false =
      (seriesGrid s).filter fun g => (lookup s g).isSome := by
    simpa using memberIdx_eq_filter_grid s fm hfr false
  have hmemM : memberIdx s fm true =
      (seriesGrid s).filter fun g => (lookup s g).isNone := by
    simpa using memberIdx_eq_filter_grid s fm hfr true
  have hgnd : (seriesGrid s).Nodup := seriesGrid_nodup s (hfr ▸ h0v)
  refine ⟨?_, ?_, ?_, ?_⟩
  · intro t
    rw [hVf, hMf, hmemV, hmemM]
    constructor
    · intro ht
      cases hx : lookup s t with
      | none => exact Or.inr (List.mem_filter.2 ⟨ht, by simp [hx]⟩)
      | some v => exact Or.inl (List.mem_filter.2 ⟨ht, by simp [hx]⟩)
    · rintro (ht | ht) <;> exact (List.mem_filter.1 ht).1
  · intro t ⟨h1, h2⟩
    rw [hVf, hmemV] at h1
    rw [hMf, hmemM] at h2
    have hs1 := (List.mem_filter.1 h1).2
    have hs2 := (List.mem_filter.1 h2).2
    cases hx : lookup s t with
    | none => rw [hx] at hs1; simp at hs1
    | some v => rw [hx] at hs2; simp at hs2
  · intro t ht
    refine countP_mem_flatten_eq_one ?_ ht
    rw [hVf, hmemV]
    exact hgnd.filter _
  · intro t ht
    refine countP_mem_flatten_eq_one ?_ ht
    rw [hMf, hmemM]
    exact hgnd.filter _

/-- Witness for C4's amended theorem on the hourly column with one gap. -/
theorem segmentation_partitions_grid_witness :
    (∀ t, t ∈ seriesGrid sOneGap ↔
      (t ∈ ([[0, 2]] : List (List Stamp)).flatten ∨
        t ∈ ([[1]] : List (List Stamp)).flatten)) ∧
    (∀ t, ¬(t ∈ ([[0, 2]] : List (List Stamp)).flatten ∧
      t ∈ ([[1]] : List (List Stamp)).flatten)) ∧
    (∀ t ∈ ([[0, 2]] : List (List Stamp)).flatten,
      (([[0, 2]] : List (List Stamp)).countP fun b => decide (t ∈ b)) = 1) ∧
    (∀ t ∈ ([[1]] : List (List Stamp)).flatten,
      (([[1]] : List (List Stamp)).countP fun b => decide (t ∈ b)) = 1) :=
  segmentation_partitions_grid sOneGap [[0, 2]] [[1]] (by decide) (by decide)

theorem getLastD_mem_of_ne_nil (l : List Stamp) (h : l ≠ []) (d : Stamp) :
    l.getLastD d ∈ l := by
  rw [List.getLastD_eq_getLast?, List.getLast?_eq_getLast l h]
  exact List.getLast_mem h

theorem getLastD_eq_self_or_mem (l : List Stamp) (d : Stamp) :
    l.getLastD d = d ∨ l.getLastD d ∈ l := by
  cases l with
  | nil => exact Or.inl rfl
  | cons a l =>
    exact Or.inr (getLastD_mem_of_ne_nil _ (List.cons_ne_nil _ _) _)

theorem le_getLastD_of_mem :
    ∀ l : List Stamp, l.Pairwise (· < ·) → ∀ d, ∀ x ∈ l, x ≤ l.getLastD d := by
  intro l
  induction l with
  | nil => intro _ d x hx; cases hx
  | cons a l ih =>
    intro hp d x hx
    rw [List.getLastD_cons]
    rcases List.mem_cons.1 hx with rfl | hx'
    · rcases getLastD_eq_self_or_mem l x with he | hm
      · rw [he]
      · exact le_of_lt ((List.pairwise_cons.1 hp).1 _ hm)
    · exact ih (List.pairwise_cons.1 hp).2 a x hx'

theorem headD_le_of_mem (l : List Stamp) (hp : l.Pairwise (· < ·))
    (d : Stamp) (x : Stamp) (hx : x ∈ l) : l.headD d ≤ x := by
  cases l with
  | nil => cases hx
  | cons a l =>
    rcases List.mem_cons.1 hx with rfl | hx'
    · exact le_refl x
    · exact le_of_lt ((List.pairwise_cons.1 hp).1 x hx')

/-- C9: on a non-empty block and a non-empty strictly increasing reference
index the resolver returns (never raises); `before` is the greatest
reference timestamp strictly earlier than the block's first member, falling
back to the reference index's first timestamp when none exists, and `after`
is symmetrically the least reference timestamp strictly later than the
block's last member, falling back to its last timestamp. -/
theorem outer_timestamps_resolution (idx ref : List Stamp) (h1 : idx ≠ [])
    (h2 : ref ≠ []) (hs : ref.Pairwise (· < ·)) :
    ∃ b a, get_outer_timestamps idx ref = some (b, a) ∧
      ((b ∈ ref ∧ b < idx.headD 0 ∧ ∀ r ∈ ref, r < idx.headD 0 → r ≤ b) ∨
        ((∀ r ∈ ref, ¬r < idx.headD 0) ∧ b = ref.headD 0)) ∧
      ((a ∈ ref ∧ idx.getLastD 0 < a ∧
          ∀ r ∈ ref, idx.getLastD 0 < r → a ≤ r) ∨
        ((∀ r ∈ ref, ¬idx.getLastD 0 < r) ∧ a = ref.getLastD 0)) := by
  cases idx with
  | nil => exact absurd rfl h1
  | cons i0 itl =>
    cases ref with
    | nil => exact absurd rfl h2
    | cons r0 rtl =>
      have hlast : (i0 :: itl).getLastD i0 = (i0 :: itl).getLastD 0 := by
        rw [List.getLastD_cons, List.getLastD_cons]
      rw [show get_outer_timestamps (i0 :: itl) (r0 :: rtl) =
        some ((((r0 :: rtl).filter fun r => r < i0).getLastD r0),
          (((r0 :: rtl).filter fun r =>
            (i0 :: itl).getLastD 0 < r).headD
            ((r0 :: rtl).getLastD r0))) by
        rw [get_outer_timestamps, hlast]]
      refine ⟨_, _, rfl, ?_, ?_⟩
      · cases hf : (r0 :: rtl).filter (fun r => decide (r < i0)) with
        | nil =>
          right
          constructor
          · intro r hr hlt
            have hm : r ∈ (r0 :: rtl).filter (fun r => decide (r < i0)) :=
              List.mem_filter.2 ⟨hr, by simpa using hlt⟩
            rw [hf] at hm
            cases hm
          · rfl
        | cons q ql =>
          left
          have hmem : (q :: ql).getLastD r0 ∈
              (r0 :: rtl).filter (fun r => decide (r < i0)) := by
            rw [hf]
            exact getLastD_mem_of_ne_nil _ (List.cons_ne_nil _ _) _
          have hmf := List.mem_filter.1 hmem
          refine ⟨hmf.1, by simpa using hmf.2, ?_⟩
          intro r hr hlt
          have hrf : r ∈ (r0 :: rtl).filter (fun r => decide (r < i0)) :=
            List.mem_filter.2 ⟨hr, by simpa using hlt⟩
          have hle := le_getLastD_of_mem _ (hs.filter _) r0 r hrf
          rw [hf] at hle
          exact hle
      · cases hf : (r0 :: rtl).filter
            (fun r => decide ((i0 :: itl).getLastD 0 < r)) with
        | nil =>
          right
          constructor
          · intro r hr hlt
            have hm : r ∈ (r0 :: rtl).filter
                (fun r => decide ((i0 :: itl).getLastD 0 < r)) :=
              List.mem_filter.2 ⟨hr, by simpa using hlt⟩
            rw [hf] at hm
            cases hm
          · rw [List.headD_nil, List.getLastD_cons, List.getLastD_cons]
        | cons q ql =>
          left
          have hmem : (q :: ql).headD ((r0 :: rtl).getLastD r0) ∈
              (r0 :: rtl).filter
                (fun r => decide ((i0 :: itl).getLastD 0 < r)) := by
            rw [hf]
            exact List.mem_cons_self _ _
          have hmf := List.mem_filter.1 hmem
          refine ⟨hmf.1, by simpa using hmf.2, ?_⟩
          intro r hr hlt
          have hrf : r ∈ (r0 :: rtl).filter
              (fun r => decide ((i0 :: itl).getLastD 0 < r)) :=
            List.mem_filter.2 ⟨hr, by simpa using hlt⟩
          have hle := headD_le_of_mem _ (hs.filter _)
            ((r0 :: rtl).getLastD r0) r hrf
          rw [hf] at hle
          exact hle

/-- Witness for C9: the block 5h–6h against the reference index
`[3, 5, 6, 9]`. -/
theorem outer_timestamps_resolution_witness :
    ∃ b a, get_outer_timestamps [5, 6] [3, 5, 6, 9] = some (b, a) ∧
      ((b ∈ [3, 5, 6, 9] ∧ b < ([5, 6] : List Stamp).headD 0 ∧
          ∀ r ∈ [3, 5, 6, 9], r < ([5, 6] : List Stamp).headD 0 → r ≤ b) ∨
        ((∀ r ∈ [3, 5, 6, 9], ¬r < ([5, 6] : List Stamp).headD 0) ∧
          b = ([3, 5, 6, 9] : List Stamp).headD 0)) ∧
      ((a ∈ [3, 5, 6, 9] ∧ ([5, 6] : List Stamp).getLastD 0 < a ∧
          ∀ r ∈ [3, 5, 6, 9], ([5, 6] : List Stamp).getLastD 0 < r → a ≤ r) ∨
        ((∀ r ∈ [3, 5, 6, 9], ¬([5, 6] : List Stamp).getLastD 0 < r) ∧
          a = ([3, 5, 6, 9] : List Stamp).getLastD 0)) :=
  outer_timestamps_resolution [5, 6] [3, 5, 6, 9] (by decide) (by decide)
    (by decide)

/-- C10 (amended): whenever `get_gaps_mask` returns a mask on two frames that
agree on their axis and on the values of their first column, the masks are
identical — the computation reads only the first column's blocks and the
shared axis.  (A differing later column can still make one of the two calls
raise.) -/
theorem gaps_mask_depends_on_first_column (A B : Frame) (operator : String)
    (size : Option Stamp) (mA mB : List Bool)
    (hidx : A.index = B.index)
    (hcol : (A.cols.head?).map Prod.snd = (B.cols.head?).map Prod.snd)
    (hA : get_gaps_mask A operator size = some mA)
    (hB : get_gaps_mask B operator size = some mB) : mA = mB := by
  unfold get_gaps_mask at hA hB
  split at hA
  next => simp at hA
  next lo up li ui heq =>
    split at hB
    next heq' => rw [heq] at heq'; simp at heq'
    next lo' up' li' ui' heq' =>
      rw [heq] at heq'
      obtain hps := Option.some_inj.1 heq'
      injection hps with ha hrest
      injection hrest with hb hrest2
      injection hrest2 with hc hd
      subst ha hb hc hd
      split at hA
      next => simp at hA
      next gapsA hdbA =>
        split at hA
        next => simp at hA
        next nmA gidxA tailA =>
          split at hB
          next => simp at hB
          next gapsB hdbB =>
            split at hB
            next => simp at hB
            next nmB gidxB tailB =>
              unfold get_data_blocks at hdbA hdbB
              cases hcolsA : A.cols with
              | nil =>
                rw [hcolsA, List.mapM_nil] at hdbA
                simp at hdbA
              | cons cA restA =>
                cases hcolsB : B.cols with
                | nil =>
                  rw [hcolsB, List.mapM_nil] at hdbB
                  simp at hdbB
                | cons cB restB =>
                  rw [hcolsA] at hdbA
                  rw [hcolsB] at hdbB
                  obtain ⟨bA, bsA, hgA, _, hconsA⟩ :=
                    mapM_cons_some _ cA restA _ hdbA
                  obtain ⟨bB, bsB, hgB, _, hconsB⟩ :=
                    mapM_cons_some _ cB restB _ hdbB
                  obtain ⟨KA, hKA, hbA⟩ := Option.map_eq_some'.1 hgA
                  obtain ⟨KB, hKB, hbB⟩ := Option.map_eq_some'.1 hgB
                  have hvals : cA.2 = cB.2 := by
                    rw [hcolsA, hcolsB] at hcol
                    simpa using hcol
                  have hseries : A.colSeries cA = B.colSeries cB := by
                    unfold Frame.colSeries
                    rw [hidx, hvals]
                  have hKAB : KA = KB := by
                    rw [hseries, hKB] at hKA
                    exact Option.some_inj.1 hKA.symm
                  have hgidxA : gidxA = KA := by
                    have hp : (nmA, gidxA) = bA :=
                      (List.cons.injEq _ _ _ _ ▸ hconsA).1
                    rw [← hbA] at hp
                    exact (Prod.mk.injEq _ _ _ _ ▸ hp).2
                  have hgidxB : gidxB = KB := by
                    have hp : (nmB, gidxB) = bB :=
                      (List.cons.injEq _ _ _ _ ▸ hconsB).1
                    rw [← hbB] at hp
                    exact (Prod.mk.injEq _ _ _ _ ▸ hp).2
                  have hmA : mA = A.index.map fun t =>
                      decide (t ∈ gidxA.flatten) := by
                    simpa using hA.symm
                  have hmB : mB = B.index.map fun t =>
                      decide (t ∈ gidxB.flatten) := by
                    simpa using hB.symm
                  rw [hmA, hmB, hidx, hgidxA, hgidxB, hKAB]

/-- Witness for C10's amended theorem: `frameA` and `frameC` agree on axis
and first column, differ in the second, and both return; the masks
coincide. -/
theorem gaps_mask_depends_on_first_column_witness :
    ([false, true, false] : List Bool) = [false, true, false] :=
  gaps_mask_depends_on_first_column frameA frameC "GTE" (some 1)
    [false, true, false] [false, true, false] rfl rfl (by decide) (by decide)

end Tide
